/-
Verification of the `camera_calibration` library
(`camera_calibration_lib/cameras_extrinsic_calibration.py` and
`camera_calibration_lib/chessboard_pose_estimation.py`).

The numeric code is shallowly embedded over ℚ: matrices are Mathlib
matrices, the 4×4 homogeneous transforms are indexed by `Fin 3 ⊕ Fin 1` so
that the `[[R, t], [0, 1]]` block structure built by the Python code
(`np.eye(4)` with the top three rows overwritten) is explicit.
`np.linalg.inv`, which raises `LinAlgError` on a singular input, is
embedded as an `Option`-valued function that succeeds exactly on matrices
with non-zero determinant and otherwise returns the adjugate-based inverse.
The chessboard pose estimator (whose numeric output is produced by
OpenCV's `solvePnP`/`Rodrigues`) is treated as an oracle attached to each
camera: a stream of pose samples, one per estimation call.  Camera
interactions (frame captures, pose-estimation calls) are recorded in an
event trace so that ordering and counting properties of the orchestration
can be stated.
-/
import Mathlib

namespace CameraCalibration

abbrev Mat3 := Matrix (Fin 3) (Fin 3) ℚ

abbrev Vec3 := Matrix (Fin 3) (Fin 1) ℚ

abbrev Mat4 := Matrix (Fin 3 ⊕ Fin 1) (Fin 3 ⊕ Fin 1) ℚ

/-- A `(rotation, translation)` pair as returned by
`chessboard_pose_estimation`: a 3×3 rotation matrix and a 3×1 translation
vector. -/
structure Pose where
  rot : Mat3
  trasl : Vec3

/-- A camera as seen by `extrinsic_calibration`: pose estimation is the
external `chessboard_pose_estimation` call, modelled as an oracle giving
the pose returned by the k-th estimation call on this camera. -/
structure CameraModel where
  samples : ℕ → Pose

instance : Inhabited Pose := ⟨⟨1, 0⟩⟩

instance : Inhabited CameraModel := ⟨⟨fun _ => default⟩⟩

/-- `np.mean(·, 0)`: the element-wise mean of a list of matrices. -/
def npMean {m n : Type} [Fintype m] [Fintype n]
    (l : List (Matrix m n ℚ)) : Matrix m n ℚ :=
  ((l.length : ℚ))⁻¹ • l.sum

/-- The per-camera pose acquisition of `extrinsic_calibration`
(lines 33-45): if `loops == 1` the single estimate is used directly,
otherwise `loops` estimates are drawn sequentially and averaged
element-wise (`np.mean(rots, 0)`, `np.mean(trasls, 0)`). -/
def acquirePose (cam : CameraModel) (loops : ℕ) : Pose :=
  if loops = 1 then cam.samples 0
  else
    ⟨npMean ((List.range loops).map fun k => (cam.samples k).rot),
     npMean ((List.range loops).map fun k => (cam.samples k).trasl)⟩

/-- `hom_mat = np.eye(4); hom_mat[:3, :3] = rot_mat; hom_mat[:3, 3:] =
trasl_vec` (lines 49-51): the affine 4×4 block matrix `[[R, t], [0, 1]]`,
whose bottom row `[0, 0, 0, 1]` is left over from `np.eye(4)`. -/
def homFromPose (p : Pose) : Mat4 :=
  Matrix.fromBlocks p.rot p.trasl 0 1

/-- The homogeneous matrix assembled for one camera. -/
def camHom (loops : ℕ) (cam : CameraModel) : Mat4 :=
  homFromPose (acquirePose cam loops)

/-- The value `np.linalg.inv` computes when it succeeds. -/
def invVal (A : Mat4) : Mat4 :=
  A.det⁻¹ • A.adjugate

/-- `np.linalg.inv` (line 59): fails (raises `LinAlgError`) exactly on
singular matrices, otherwise returns the inverse. -/
def npInv (A : Mat4) : Option Mat4 :=
  if A.det = 0 then none else some (invVal A)

/-- One step of the relative-transform loop (line 60):
`cam1_H_currentCam = np.matmul(H_ref, H_inv)`. -/
def relOf (Href H : Mat4) : Mat4 :=
  Href * invVal H

/-- Runs `np.linalg.inv` over a list of matrices, failing if any one is
singular (the loop at lines 58-61 raises at the first singular matrix). -/
def invertAll : List Mat4 → Option (List Mat4)
  | [] => some []
  | h :: t =>
    match npInv h with
    | none => none
    | some hi => (invertAll t).map fun l => hi :: l

/-- Observable interactions with the cameras during
`extrinsic_calibration`: a discarded warm-up frame capture
(`camera.get_rgb()`, line 26) or one call to
`chessboard_pose_estimation` (lines 36 and 40), which internally performs
its own captures and the `get_intrinsics` query. -/
inductive Event where
  | getRgb (cam : ℕ)
  | poseEstimate (cam : ℕ) (sample : ℕ)
deriving DecidableEq

/-- The warm-up loop (lines 25-27): for each camera in list order, ten
`get_rgb()` calls whose frames are discarded. -/
def warmupTrace : ℕ → List Event
  | 0 => []
  | n + 1 => warmupTrace n ++ List.replicate 10 (Event.getRgb n)

/-- Pose-estimation calls issued for camera `c` (lines 33-40): one direct
call when `loops == 1`, otherwise `loops` sequential calls. -/
def perCamSampling (c loops : ℕ) : List Event :=
  if loops = 1 then [Event.poseEstimate c 0]
  else (List.range loops).map (Event.poseEstimate c)

/-- Pose-estimation calls for all cameras, in list order. -/
def samplingTrace (n : ℕ) (loops : ℕ) : List Event
  :=
  match n with
  | 0 => []
  | n + 1 => samplingTrace n loops ++ perCamSampling n loops

/-- Failure modes of `extrinsic_calibration`: the `assert(len(cameras) >=
2 and ...)` at line 22, and `LinAlgError` from `np.linalg.inv`. -/
inductive CalibError where
  | invalidInput
  | singularMatrix
deriving DecidableEq

/-- `extrinsic_calibration(cameras, ..., loops)` (numeric path): checks
the length precondition, warms up every camera, acquires one (possibly
averaged) pose per camera, assembles the homogeneous matrices, and
returns `[H_ref @ inv(H) for H in homs][1:]` where `H_ref = homs[0]`.
The second component is the trace of camera interactions performed. -/
def extrinsic_calibration (cameras : List CameraModel) (loops : ℕ) :
    Except CalibError (List Mat4) × List Event :=
  if cameras.length < 2 then (Except.error CalibError.invalidInput, [])
  else
    match invertAll (cameras.map (camHom loops)) with
    | none => (Except.error CalibError.singularMatrix,
        warmupTrace cameras.length ++ samplingTrace cameras.length loops)
    | some invs =>
      (Except.ok ((invs.map fun hi =>
          (cameras.map (camHom loops)).headI * hi).drop 1),
        warmupTrace cameras.length ++ samplingTrace cameras.length loops)

/-! ## The chessboard object-point grid (`chessboard_pose_estimation`) -/

/-- `mm2m = 1e-3` (exact, since the source multiplies by the literal
`1e-3`). -/
def mm2m : ℚ := 1 / 1000

/-- The object point placed at grid position `(i, j)`:
`(i * chess_square_size * mm2m, j * chess_square_size * mm2m, 0)`. -/
def objpPoint (sq : ℚ) (i j : ℕ) : Vec3 :=
  Matrix.of fun a _ =>
    if a = 0 then i * sq * mm2m else if a = 1 then j * sq * mm2m else 0

/-- One row of the grid: `i` ranges over `0, ..., cols - 1` at fixed
`j`. -/
def objpRow (cols : ℕ) (sq : ℚ) (j : ℕ) : List Vec3 :=
  (List.range cols).map fun i => objpPoint sq i j

/-- `objp` (lines 52-53): `np.mgrid[0:cols, 0:rows].T.reshape(-1, 2)`
scaled by `chess_square_size * mm2m`, with the third coordinate left at
the `np.zeros` value.  Row-major over `j` (the transpose puts the second
`mgrid` axis outermost), so list entry `j * cols + i` is the point at
grid position `(i, j)`. -/
def objp (cols rows : ℕ) (sq : ℚ) : List Vec3 :=
  match rows with
  | 0 => []
  | r + 1 => objp cols r sq ++ objpRow cols sq r

/-! ## The pose estimator's returned pair (`chessboard_pose_estimation`) -/

/-- Modelled from the spec: `cv2.solvePnP` followed by `cv2.Rodrigues`
(lines 70-73) are OpenCV routines whose code is not part of this
repository.  Per the spec, a successful solve recovers the rigid pose
taking chessboard-frame points into camera-frame coordinates:
`R * objPt + t` is the camera-frame position of each object point, here
stated against `camPt`, the true camera-frame coordinates of the m-th
grid point. -/
def SolvePnPReturns (objPts : List Vec3) (camPt : ℕ → Vec3)
    (R : Mat3) (t : Vec3) : Prop :=
  ∀ m, (hm : m < objPts.length) → R * objPts.get ⟨m, hm⟩ + t = camPt m

/-- The value `chessboard_pose_estimation` returns (line 127 of the
estimator source): the pair `(rot_matrix, trasl_vec)` exactly as produced
by the `solvePnP`/`Rodrigues` solve, with no frame flip or other
modification applied. -/
def chessboard_pose_estimation (R : Mat3) (t : Vec3) : Pose :=
  ⟨R, t⟩

/-! ## Basic lemmas about the embedded operations -/

lemma npInv_eq_some (A : Mat4) (h : A.det ≠ 0) : npInv A = some (invVal A) := by
  simp [npInv, h]

lemma invertAll_eq_some (l : List Mat4) (h : ∀ A ∈ l, A.det ≠ 0) :
    invertAll l = some (l.map invVal) := by
  induction l with
  | nil => rfl
  | cons a t ih =>
    rw [invertAll, npInv_eq_some a (h a (List.mem_cons_self a t))]
    rw [ih fun A hA => h A (List.mem_cons_of_mem a hA)]
    rfl

lemma invertAll_some_imp (l : List Mat4) (invs : List Mat4)
    (h : invertAll l = some invs) :
    (∀ A ∈ l, A.det ≠ 0) ∧ invs = l.map invVal := by
  induction l generalizing invs with
  | nil =>
    refine ⟨by simp, ?_⟩
    rw [invertAll] at h
    simpa using h.symm
  | cons a t ih =>
    by_cases hd : a.det = 0
    · rw [invertAll] at h
      simp [npInv, hd] at h
    · rw [invertAll, npInv_eq_some a hd] at h
      cases ht : invertAll t with
      | none => rw [ht] at h; simp at h
      | some invs2 =>
        rw [ht] at h
        simp only [Option.map_some] at h
        obtain ⟨hall, heq⟩ := ih invs2 ht
        refine ⟨?_, ?_⟩
        · intro A hA
          rcases List.mem_cons.1 hA with rfl | hA2
          · exact hd
          · exact hall A hA2
        · rw [← Option.some_inj.1 h, heq, List.map_cons]

/-- What a successful run returns: `H_ref * inv(H_X)` for every camera,
with the reference camera's own entry dropped. -/
lemma extrinsic_ok (cameras : List CameraModel) (loops : ℕ)
    (h2 : 2 ≤ cameras.length)
    (hdet : ∀ cam ∈ cameras, (camHom loops cam).det ≠ 0) :
    (extrinsic_calibration cameras loops).1 =
      Except.ok ((cameras.map fun cam =>
        relOf (camHom loops cameras.headI) (camHom loops cam)).drop 1) := by
  have hnl : ¬ cameras.length < 2 := not_lt.2 h2
  have hinv : invertAll (cameras.map (camHom loops)) =
      some ((cameras.map (camHom loops)).map invVal) := by
    refine invertAll_eq_some _ ?_
    intro A hA
    rcases List.mem_map.1 hA with ⟨cam, hcam, rfl⟩
    exact hdet cam hcam
  obtain ⟨c0, rest, rfl⟩ : ∃ c0 rest, cameras = c0 :: rest := by
    cases cameras with
    | nil => simp at h2
    | cons c0 rest => exact ⟨c0, rest, rfl⟩
  unfold extrinsic_calibration
  rw [if_neg hnl]
  simp only [hinv]
  simp [relOf, List.map_map, Function.comp]

/-- A successful run implies the length precondition held, every
assembled matrix was invertible, and the output is as in
`extrinsic_ok`. -/
lemma extrinsic_ok_imp (cameras : List CameraModel) (loops : ℕ)
    (out : List Mat4)
    (h : (extrinsic_calibration cameras loops).1 = Except.ok out) :
    2 ≤ cameras.length ∧ (∀ cam ∈ cameras, (camHom loops cam).det ≠ 0) ∧
    out = (cameras.map fun cam =>
        relOf (camHom loops cameras.headI) (camHom loops cam)).drop 1 := by
  by_cases hl : cameras.length < 2
  · rw [extrinsic_calibration, if_pos hl] at h
    simp at h
  · have h2 : 2 ≤ cameras.length := not_lt.1 hl
    refine ⟨h2, ?_⟩
    rw [extrinsic_calibration, if_neg hl] at h
    cases hi : invertAll (cameras.map (camHom loops)) with
    | none => rw [hi] at h; simp at h
    | some invs =>
      rw [hi] at h
      simp only [Except.ok.injEq] at h
      obtain ⟨hall, heq⟩ := invertAll_some_imp _ _ hi
      have hdet : ∀ cam ∈ cameras, (camHom loops cam).det ≠ 0 := by
        intro cam hcam
        exact hall _ (List.mem_map.2 ⟨cam, hcam, rfl⟩)
      refine ⟨hdet, ?_⟩
      obtain ⟨c0, rest, rfl⟩ : ∃ c0 rest, cameras = c0 :: rest := by
        cases cameras with
        | nil => simp at h2
        | cons c0 rest => exact ⟨c0, rest, rfl⟩
      rw [← h, heq]
      simp [relOf, List.map_map, Function.comp]

/-- The trace of a run that passes the length precondition: all warm-up
captures, then all pose-estimation calls. -/
lemma extrinsic_trace (cameras : List CameraModel) (loops : ℕ)
    (h2 : 2 ≤ cameras.length) :
    (extrinsic_calibration cameras loops).2 =
      warmupTrace cameras.length ++ samplingTrace cameras.length loops := by
  have hnl : ¬ cameras.length < 2 := not_lt.2 h2
  rw [extrinsic_calibration, if_neg hnl]
  cases invertAll (cameras.map (camHom loops)) <;> rfl

/-! ## Matrix-algebra lemmas for the homogeneous transforms -/

lemma det_homFromPose (p : Pose) : (homFromPose p).det = p.rot.det := by
  rw [homFromPose, Matrix.det_fromBlocks_zero₂₁]
  simp

lemma mul_invVal (A : Mat4) (h : A.det ≠ 0) : A * invVal A = 1 := by
  rw [invVal, mul_smul_comm, Matrix.mul_adjugate, smul_smul,
    inv_mul_cancel₀ h, one_smul]

lemma invVal_mul (A : Mat4) (h : A.det ≠ 0) : invVal A * A = 1 := by
  rw [invVal, smul_mul_assoc, Matrix.adjugate_mul, smul_smul,
    inv_mul_cancel₀ h, one_smul]

lemma relOf_self (H : Mat4) (h : H.det ≠ 0) : relOf H H = 1 :=
  mul_invVal H h

/-- The bottom row of a 4×4 matrix is `[0, 0, 0, 1]`, i.e. the matrix is
an affine transform in homogeneous form. -/
def LastRowId (M : Mat4) : Prop :=
  (∀ j : Fin 3, M (Sum.inr 0) (Sum.inl j) = 0) ∧
    M (Sum.inr 0) (Sum.inr 0) = 1

lemma lastRowId_homFromPose (p : Pose) : LastRowId (homFromPose p) := by
  constructor
  · intro j
    simp [homFromPose, Matrix.fromBlocks]
  · simp [homFromPose, Matrix.fromBlocks, Matrix.one_apply]

lemma lastRowId_one : LastRowId (1 : Mat4) := by
  constructor
  · intro j
    simp [Matrix.one_apply]
  · simp [Matrix.one_apply]

lemma mul_apply_lastRow (A B : Mat4) (hA : LastRowId A)
    (c : Fin 3 ⊕ Fin 1) : (A * B) (Sum.inr 0) c = B (Sum.inr 0) c := by
  rw [Matrix.mul_apply, Fintype.sum_sum_type]
  simp [hA.1, hA.2, Fin.sum_univ_succ]

lemma lastRowId_mul (A B : Mat4) (hA : LastRowId A) (hB : LastRowId B) :
    LastRowId (A * B) := by
  constructor
  · intro j
    rw [mul_apply_lastRow A B hA]
    exact hB.1 j
  · rw [mul_apply_lastRow A B hA]
    exact hB.2

lemma lastRowId_invVal (A : Mat4) (hA : LastRowId A) (h : A.det ≠ 0) :
    LastRowId (invVal A) := by
  have h1 : ∀ c, invVal A (Sum.inr 0) c = (1 : Mat4) (Sum.inr 0) c := by
    intro c
    have h2 := mul_apply_lastRow A (invVal A) hA c
    rw [mul_invVal A h] at h2
    exact h2.symm
  constructor
  · intro j
    rw [h1]
    exact lastRowId_one.1 j
  · rw [h1]
    exact lastRowId_one.2

lemma lastRowId_relOf (Href H : Mat4) (h1 : LastRowId Href)
    (h2 : LastRowId H) (hd : H.det ≠ 0) : LastRowId (relOf Href H) :=
  lastRowId_mul _ _ h1 (lastRowId_invVal H h2 hd)

/-! ## Trace lemmas: warm-up captures and pose-estimation calls -/

/-- Recognizes a pose-estimation call on camera `c`. -/
def isPoseEstOf (c : ℕ) : Event → Bool
  | Event.poseEstimate c2 _ => c2 == c
  | _ => false

lemma mem_warmupTrace (n : ℕ) (e : Event) (he : e ∈ warmupTrace n) :
    ∃ c, c < n ∧ e = Event.getRgb c := by
  induction n with
  | zero => simp [warmupTrace] at he
  | succ n ih =>
    rw [warmupTrace] at he
    rcases List.mem_append.1 he with h1 | h2
    · obtain ⟨c, hc, rfl⟩ := ih h1
      exact ⟨c, Nat.lt_succ_of_lt hc, rfl⟩
    · rw [List.mem_replicate] at h2
      exact ⟨n, Nat.lt_succ_self n, h2.2⟩

lemma count_warmupTrace (n c : ℕ) (hc : c < n) :
    (warmupTrace n).count (Event.getRgb c) = 10 := by
  induction n with
  | zero => omega
  | succ n ih =>
    rw [warmupTrace, List.count_append]
    by_cases h : c = n
    · subst h
      have h0 : (warmupTrace c).count (Event.getRgb c) = 0 := by
        rw [List.count_eq_zero]
        intro hmem
        obtain ⟨c2, hc2, he⟩ := mem_warmupTrace c _ hmem
        rw [Event.getRgb.injEq] at he
        omega
      rw [h0, List.count_replicate_self]
    · have hcn : c < n := by omega
      have h0 : (List.replicate 10 (Event.getRgb n)).count
          (Event.getRgb c) = 0 := by
        rw [List.count_eq_zero]
        intro hmem
        rw [List.mem_replicate, Event.getRgb.injEq] at hmem
        omega
      rw [ih hcn, h0]

lemma mem_perCamSampling (c loops : ℕ) (e : Event)
    (he : e ∈ perCamSampling c loops) : ∃ k, e = Event.poseEstimate c k := by
  rw [perCamSampling] at he
  by_cases h1 : loops = 1
  · rw [if_pos h1, List.mem_singleton] at he
    exact ⟨0, he⟩
  · rw [if_neg h1] at he
    obtain ⟨k, _, rfl⟩ := List.mem_map.1 he
    exact ⟨k, rfl⟩

lemma countP_perCamSampling_self (c loops : ℕ) :
    (perCamSampling c loops).countP (isPoseEstOf c) = loops := by
  rw [perCamSampling]
  by_cases h : loops = 1
  · rw [if_pos h, h]
    simp [isPoseEstOf]
  · rw [if_neg h, List.countP_map]
    have h2 : (isPoseEstOf c ∘ Event.poseEstimate c) = fun _ => true := by
      funext k
      simp [isPoseEstOf, Function.comp]
    rw [h2]
    simp

lemma countP_perCamSampling_ne (c c2 loops : ℕ) (h : c2 ≠ c) :
    (perCamSampling c2 loops).countP (isPoseEstOf c) = 0 := by
  rw [List.countP_eq_zero]
  intro e he
  obtain ⟨k, rfl⟩ := mem_perCamSampling c2 loops e he
  simp [isPoseEstOf, h]

lemma mem_samplingTrace (n loops : ℕ) (e : Event)
    (he : e ∈ samplingTrace n loops) :
    ∃ c k, c < n ∧ e = Event.poseEstimate c k := by
  induction n with
  | zero => simp [samplingTrace] at he
  | succ n ih =>
    rw [samplingTrace] at he
    rcases List.mem_append.1 he with h1 | h2
    · obtain ⟨c, k, hc, rfl⟩ := ih h1
      exact ⟨c, k, Nat.lt_succ_of_lt hc, rfl⟩
    · obtain ⟨k, rfl⟩ := mem_perCamSampling n loops e h2
      exact ⟨n, k, Nat.lt_succ_self n, rfl⟩

lemma countP_samplingTrace (n c loops : ℕ) (hc : c < n) :
    (samplingTrace n loops).countP (isPoseEstOf c) = loops := by
  induction n with
  | zero => omega
  | succ n ih =>
    rw [samplingTrace, List.countP_append]
    by_cases h : c = n
    · subst h
      have h0 : (samplingTrace c loops).countP (isPoseEstOf c) = 0 := by
        rw [List.countP_eq_zero]
        intro e he
        obtain ⟨c2, k, hc2, rfl⟩ := mem_samplingTrace c loops e he
        simp [isPoseEstOf]
        omega
      rw [h0, countP_perCamSampling_self c loops, Nat.zero_add]
    · have hcn : c < n := by omega
      rw [ih hcn, countP_perCamSampling_ne c n loops (by omega), Nat.add_zero]

lemma countP_warmupTrace_poseEst (n c : ℕ) :
    (warmupTrace n).countP (isPoseEstOf c) = 0 := by
  rw [List.countP_eq_zero]
  intro e he
  obtain ⟨c2, _, rfl⟩ := mem_warmupTrace n e he
  simp [isPoseEstOf]

/-! ## Lemmas about the object-point grid -/

/-- Offset between horizontally neighbouring grid points. -/
def xStep (sq : ℚ) : Vec3 :=
  Matrix.of fun a _ => if a = 0 then sq * mm2m else 0

/-- Offset between vertically neighbouring grid points. -/
def yStep (sq : ℚ) : Vec3 :=
  Matrix.of fun a _ => if a = 1 then sq * mm2m else 0

lemma length_objp (cols rows : ℕ) (sq : ℚ) :
    (objp cols rows sq).length = cols * rows := by
  induction rows with
  | zero => simp [objp]
  | succ r ih =>
    rw [objp, List.length_append, ih, objpRow, List.length_map,
      List.length_range, Nat.mul_succ]

lemma mem_objp (cols rows : ℕ) (sq : ℚ) (p : Vec3)
    (h : p ∈ objp cols rows sq) :
    ∃ i j, i < cols ∧ j < rows ∧ p = objpPoint sq i j := by
  induction rows with
  | zero => simp [objp] at h
  | succ r ih =>
    rw [objp] at h
    rcases List.mem_append.1 h with h1 | h2
    · obtain ⟨i, j, hi, hj, rfl⟩ := ih h1
      exact ⟨i, j, hi, Nat.lt_succ_of_lt hj, rfl⟩
    · obtain ⟨i, hi, rfl⟩ := List.mem_map.1 h2
      exact ⟨i, r, List.mem_range.1 hi, Nat.lt_succ_self r, rfl⟩

lemma getElem_objp (cols rows : ℕ) (sq : ℚ) (i j : ℕ)
    (hi : i < cols) (hj : j < rows) :
    (objp cols rows sq)[j * cols + i]? = some (objpPoint sq i j) := by
  induction rows with
  | zero => omega
  | succ r ih =>
    rw [objp]
    by_cases h : j = r
    · subst h
      rw [List.getElem?_append_right]
      · rw [length_objp]
        have he : j * cols + i - cols * j = i := by
          rw [Nat.mul_comm]
          omega
        rw [he, objpRow, List.getElem?_map, List.getElem?_range hi]
        rfl
      · rw [length_objp, Nat.mul_comm]
        omega
    · have hjr : j < r := by omega
      rw [List.getElem?_append_left]
      · exact ih hjr
      · rw [length_objp]
        have hle : j * cols + cols ≤ r * cols :=
          calc j * cols + cols = (j + 1) * cols := by ring
          _ ≤ r * cols := Nat.mul_le_mul_right cols hjr
        have hcomm : r * cols = cols * r := Nat.mul_comm r cols
        omega

lemma objpPoint_entries (sq : ℚ) (i j : ℕ) :
    objpPoint sq i j 0 0 = i * sq * mm2m ∧
    objpPoint sq i j 1 0 = j * sq * mm2m ∧
    objpPoint sq i j 2 0 = 0 := by
  refine ⟨?_, ?_, ?_⟩ <;> simp [objpPoint]

lemma objpPoint_xStep (sq : ℚ) (i j : ℕ) :
    objpPoint sq (i + 1) j = objpPoint sq i j + xStep sq := by
  ext a b
  fin_cases a <;> fin_cases b <;>
    simp [objpPoint, xStep, Matrix.add_apply] <;> try ring

lemma objpPoint_yStep (sq : ℚ) (i j : ℕ) :
    objpPoint sq i (j + 1) = objpPoint sq i j + yStep sq := by
  ext a b
  fin_cases a <;> fin_cases b <;>
    simp [objpPoint, yStep, Matrix.add_apply] <;> try ring

/-! ## Concrete instances used to exercise the theorems -/

/-- The identity pose. -/
def idPose : Pose := ⟨1, 0⟩

/-- A camera whose every estimation call returns the identity pose. -/
def idCam : CameraModel := ⟨fun _ => idPose⟩

lemma invVal_one : invVal (1 : Mat4) = 1 := by
  rw [invVal, Matrix.det_one, Matrix.adjugate_one, inv_one, one_smul]

lemma camHom_idCam : camHom 1 idCam = 1 := by
  rw [camHom, acquirePose, if_pos rfl]
  show homFromPose idPose = 1
  rw [idPose, homFromPose]
  exact Matrix.fromBlocks_one

lemma extr_eval_id :
    (extrinsic_calibration [idCam, idCam] 1).1 = Except.ok [1] := by
  have hdet : ∀ cam ∈ [idCam, idCam], (camHom 1 cam).det ≠ 0 := by
    intro cam hcam
    rcases List.mem_cons.1 hcam with rfl | hcam2
    · rw [camHom_idCam, Matrix.det_one]
      exact one_ne_zero
    · rw [List.mem_singleton.1 hcam2, camHom_idCam, Matrix.det_one]
      exact one_ne_zero
  have h := extrinsic_ok [idCam, idCam] 1 (by simp) hdet
  rw [h]
  have hrel : relOf (camHom 1 idCam) (camHom 1 idCam) = 1 := by
    rw [camHom_idCam, relOf, invVal_one, one_mul]
  simp [hrel]

/-! ## The claims -/

/-- C5: calling `extrinsic_calibration` with fewer than 2 cameras fails
the `assert` at line 22 synchronously: the result is the `InvalidInput`
condition and the interaction trace is empty — no `get_rgb` (and no
pose-estimation call, hence no `get_intrinsics`) is performed on any
camera. -/
theorem extrinsic_calibration_invalid_input (cameras : List CameraModel)
    (loops : ℕ) (h : cameras.length < 2) :
    (extrinsic_calibration cameras loops).1 =
      Except.error CalibError.invalidInput ∧
    (extrinsic_calibration cameras loops).2 = [] := by
  rw [extrinsic_calibration, if_pos h]
  exact ⟨rfl, rfl⟩

theorem extrinsic_calibration_invalid_input_witness :
    (extrinsic_calibration [idCam] 3).1 =
      Except.error CalibError.invalidInput ∧
    (extrinsic_calibration [idCam] 3).2 = [] :=
  extrinsic_calibration_invalid_input [idCam] 3 (by simp)

/-- C7: the homogeneous transform assembled from any pose with an
invertible rotation block is invertible (`np.linalg.inv` succeeds and
returns a two-sided inverse), and the relative transform the loop
computes at index 0 for the reference camera, `H_ref * inv(H_ref)`, is
exactly the 4×4 identity. -/
theorem homFromPose_inverse (p : Pose) (h : p.rot.det ≠ 0) :
    (∃ Hi, npInv (homFromPose p) = some Hi ∧
      homFromPose p * Hi = 1 ∧ Hi * homFromPose p = 1) ∧
    relOf (homFromPose p) (homFromPose p) = 1 := by
  have hd : (homFromPose p).det ≠ 0 := by
    rw [det_homFromPose]
    exact h
  exact ⟨⟨invVal (homFromPose p), npInv_eq_some _ hd, mul_invVal _ hd,
    invVal_mul _ hd⟩, relOf_self _ hd⟩

theorem homFromPose_inverse_witness :
    relOf (homFromPose idPose) (homFromPose idPose) = 1 :=
  (homFromPose_inverse idPose (by rw [idPose, Matrix.det_one]; exact
    one_ne_zero)).2

/-- C8: whenever the length precondition holds, the interaction trace
splits as warm-up followed by sampling: the warm-up part contains only
discarded `get_rgb` captures, with exactly 10 (hence at least 10) per
camera for every camera, and the sampling part contains no warm-up
capture — every pose-estimation call comes after all warm-up frames. -/
theorem warmup_before_sampling (cameras : List CameraModel) (loops : ℕ)
    (h2 : 2 ≤ cameras.length) :
    (extrinsic_calibration cameras loops).2 =
      warmupTrace cameras.length ++ samplingTrace cameras.length loops ∧
    (∀ e ∈ warmupTrace cameras.length, ∃ c, e = Event.getRgb c) ∧
    (∀ c, c < cameras.length →
      10 ≤ (warmupTrace cameras.length).count (Event.getRgb c)) ∧
    (∀ e ∈ samplingTrace cameras.length loops, ∀ c,
      e ≠ Event.getRgb c) := by
  refine ⟨extrinsic_trace cameras loops h2, ?_, ?_, ?_⟩
  · intro e he
    obtain ⟨c, _, rfl⟩ := mem_warmupTrace cameras.length e he
    exact ⟨c, rfl⟩
  · intro c hc
    rw [count_warmupTrace cameras.length c hc]
  · intro e he c
    obtain ⟨c2, k, _, rfl⟩ := mem_samplingTrace cameras.length loops e he
    simp

theorem warmup_before_sampling_witness :
    (extrinsic_calibration [idCam, idCam] 1).2 =
      warmupTrace 2 ++ samplingTrace 2 1 ∧
    10 ≤ (warmupTrace 2).count (Event.getRgb 0) :=
  ⟨(warmup_before_sampling [idCam, idCam] 1 (by simp)).1,
    (warmup_before_sampling [idCam, idCam] 1 (by simp)).2.2.1 0 (by simp)⟩

/-- C9: the object-point grid for a `(cols, rows)` chessboard with square
size `sq` millimeters has exactly `cols * rows` points, every point has
`z = 0`, list entry `j * cols + i` is the point at grid position
`(i, j)` with coordinates `(i * sq * mm2m, j * sq * mm2m, 0)`, and
horizontal and vertical grid neighbours differ by exactly `sq * mm2m`
(millimeters converted to meters) in one coordinate. -/
theorem objp_grid_spec (cols rows : ℕ) (sq : ℚ) :
    (objp cols rows sq).length = cols * rows ∧
    (∀ p ∈ objp cols rows sq, p 2 0 = 0) ∧
    (∀ i j, i < cols → j < rows →
      (objp cols rows sq)[j * cols + i]? = some (objpPoint sq i j)) ∧
    (∀ i j : ℕ, objpPoint sq i j 0 0 = i * sq * mm2m ∧
      objpPoint sq i j 1 0 = j * sq * mm2m) ∧
    (∀ i j : ℕ, objpPoint sq (i + 1) j = objpPoint sq i j + xStep sq ∧
      objpPoint sq i (j + 1) = objpPoint sq i j + yStep sq) := by
  refine ⟨length_objp cols rows sq, ?_, ?_, ?_, ?_⟩
  · intro p hp
    obtain ⟨i, j, _, _, rfl⟩ := mem_objp cols rows sq p hp
    exact (objpPoint_entries sq i j).2.2
  · intro i j hi hj
    exact getElem_objp cols rows sq i j hi hj
  · intro i j
    exact ⟨(objpPoint_entries sq i j).1, (objpPoint_entries sq i j).2.1⟩
  · intro i j
    exact ⟨objpPoint_xStep sq i j, objpPoint_yStep sq i j⟩

theorem objp_grid_spec_witness :
    (objp 2 3 20).length = 2 * 3 ∧
    (objp 2 3 20)[1 * 2 + 1]? = some (objpPoint 20 1 1) :=
  ⟨(objp_grid_spec 2 3 20).1,
    (objp_grid_spec 2 3 20).2.2.1 1 1 (by norm_num) (by norm_num)⟩

/-- C1: a successful run on `n ≥ 2` cameras returns exactly `n - 1`
transforms, and the k-th returned transform is
`H_ref * inv(H_X)` for `X = cameras[k + 1]` — the entry for the
reference camera itself is excluded and the order mirrors
`cameras[1:]`. -/
theorem extrinsic_calibration_output (cameras : List CameraModel)
    (loops : ℕ) (out : List Mat4) (_hl : 1 ≤ loops)
    (h : (extrinsic_calibration cameras loops).1 = Except.ok out) :
    out.length = cameras.length - 1 ∧
    ∀ k, k < out.length →
      ∃ camX Hinv, cameras[k + 1]? = some camX ∧
        npInv (camHom loops camX) = some Hinv ∧
        out[k]? = some (camHom loops cameras.headI * Hinv) := by
  obtain ⟨h2, hdet, hout⟩ := extrinsic_ok_imp cameras loops out h
  have hlen : out.length = cameras.length - 1 := by
    rw [hout]
    simp
  refine ⟨hlen, ?_⟩
  intro k hk
  have hk1 : k + 1 < cameras.length := by omega
  have hcam : cameras[k + 1]? = some cameras[k + 1] :=
    List.getElem?_eq_getElem hk1
  refine ⟨cameras[k + 1], invVal (camHom loops cameras[k + 1]), hcam,
    npInv_eq_some _ (hdet cameras[k + 1] (List.getElem_mem hk1)), ?_⟩
  rw [hout, List.getElem?_drop, List.getElem?_map]
  have h1k : 1 + k = k + 1 := Nat.add_comm 1 k
  rw [h1k, hcam]
  rfl

theorem extrinsic_calibration_output_witness :
    [(1 : Mat4)].length = [idCam, idCam].length - 1 :=
  (extrinsic_calibration_output [idCam, idCam] 1 [1] (by norm_num)
    extr_eval_id).1

/-- Entry-wise sum of a list of matrices. -/
lemma list_sum_apply {m n : Type} [Fintype m] [Fintype n]
    (l : List (Matrix m n ℚ)) (a : m) (b : n) :
    l.sum a b = (l.map fun M => M a b).sum := by
  induction l with
  | nil => rfl
  | cons M t ih =>
    rw [List.sum_cons, List.map_cons, List.sum_cons, Matrix.add_apply, ih]

/-- C3: for every camera the pose estimator is called exactly
`sample_count` times; with `sample_count = 1` the single estimate is used
directly, and with `sample_count > 1` each entry of the aggregate
rotation (resp. translation) is the arithmetic mean of that entry over
the samples. -/
theorem sampling_counts_and_average (cameras : List CameraModel)
    (loops : ℕ) (h2 : 2 ≤ cameras.length) (_hl : 1 ≤ loops) :
    (∀ c, c < cameras.length →
      (extrinsic_calibration cameras loops).2.countP (isPoseEstOf c) =
        loops) ∧
    (∀ cam : CameraModel,
      (loops = 1 → acquirePose cam loops = cam.samples 0) ∧
      (1 < loops →
        (∀ a b, (acquirePose cam loops).rot a b =
          ((List.range loops).map fun k => (cam.samples k).rot a b).sum /
            loops) ∧
        (∀ a b, (acquirePose cam loops).trasl a b =
          ((List.range loops).map fun k =>
            (cam.samples k).trasl a b).sum / loops))) := by
  constructor
  · intro c hc
    rw [extrinsic_trace cameras loops h2, List.countP_append,
      countP_warmupTrace_poseEst, countP_samplingTrace cameras.length c
        loops hc, Nat.zero_add]
  · intro cam
    constructor
    · intro h1
      rw [acquirePose, if_pos h1]
    · intro h1
      have hne : loops ≠ 1 := by omega
      constructor
      · intro a b
        rw [acquirePose, if_neg hne]
        show npMean ((List.range loops).map fun k =>
          (cam.samples k).rot) a b = _
        rw [npMean, Matrix.smul_apply, list_sum_apply, List.map_map,
          List.length_map, List.length_range, div_eq_inv_mul]
        rfl
      · intro a b
        rw [acquirePose, if_neg hne]
        show npMean ((List.range loops).map fun k =>
          (cam.samples k).trasl) a b = _
        rw [npMean, Matrix.smul_apply, list_sum_apply, List.map_map,
          List.length_map, List.length_range, div_eq_inv_mul]
        rfl

theorem sampling_counts_and_average_witness :
    (extrinsic_calibration [idCam, idCam] 1).2.countP (isPoseEstOf 0) =
      1 :=
  (sampling_counts_and_average [idCam, idCam] 1 (by simp)
    (by norm_num)).1 0 (by simp)

/-- C10: every matrix in the returned sequence has bottom row exactly
`[0, 0, 0, 1]`: the assembled transforms are affine (only the top three
rows of `np.eye(4)` are overwritten) and this form is preserved by the
inversion and the product `H_ref * inv(H_X)`. -/
theorem output_lastRow (cameras : List CameraModel) (loops : ℕ)
    (out : List Mat4) (_hl : 1 ≤ loops)
    (h : (extrinsic_calibration cameras loops).1 = Except.ok out) :
    ∀ M ∈ out, (∀ j : Fin 3, M (Sum.inr 0) (Sum.inl j) = 0) ∧
      M (Sum.inr 0) (Sum.inr 0) = 1 := by
  obtain ⟨h2, hdet, hout⟩ := extrinsic_ok_imp cameras loops out h
  intro M hM
  rw [hout] at hM
  obtain ⟨cam, hcam, rfl⟩ := List.mem_map.1 (List.mem_of_mem_drop hM)
  exact lastRowId_relOf (camHom loops cameras.headI) (camHom loops cam)
    (lastRowId_homFromPose (acquirePose cameras.headI loops))
    (lastRowId_homFromPose (acquirePose cam loops)) (hdet cam hcam)

theorem output_lastRow_witness :
    (∀ j : Fin 3, (1 : Mat4) (Sum.inr 0) (Sum.inl j) = 0) ∧
      (1 : Mat4) (Sum.inr 0) (Sum.inr 0) = 1 :=
  output_lastRow [idCam, idCam] 1 [1] (by norm_num) extr_eval_id 1
    (List.mem_singleton.2 rfl)

/-- A proper 90° rotation about the z axis. -/
def rotZ90 : Mat3 := Matrix.of fun i j =>
  if i = 0 ∧ j = 1 then -1
  else if i = 1 ∧ j = 0 then 1
  else if i = 2 ∧ j = 2 then 1 else 0

/-- A camera whose first estimation call returns the 90° z-rotation and
whose later calls return the identity pose: every individual sample is a
proper orthonormal rotation. -/
def camTurn : CameraModel :=
  ⟨fun k => if k = 0 then ⟨rotZ90, 0⟩ else ⟨1, 0⟩⟩

lemma acquire_camTurn_rot :
    (acquirePose camTurn 2).rot = (2 : ℚ)⁻¹ • (rotZ90 + (1 + 0)) := by
  rw [acquirePose, if_neg (by norm_num)]
  show npMean ((List.range 2).map fun k => (camTurn.samples k).rot) = _
  rw [npMean]
  simp [camTurn, List.range_succ]

lemma acquire_camTurn_det : (acquirePose camTurn 2).rot.det = 1 / 2 := by
  rw [acquire_camTurn_rot]
  simp [rotZ90, Matrix.det_fin_three, Matrix.smul_apply, Matrix.add_apply,
    Matrix.one_apply]
  norm_num

/-- C2 counterexample: with `sample_count = 2`, a camera whose two PnP
samples are both proper orthonormal rotations (a 90° z-rotation and the
identity) yields an aggregate Pose whose rotation has determinant `1/2`,
not within `1e-3` of 1 — and the calibration run on two such cameras
still completes and returns this aggregate's relative transform, so the
aggregate Pose is produced during calibration. -/
theorem averaged_pose_rotation_cex :
    ((camTurn.samples 0).rot.det = 1 ∧
      (camTurn.samples 0).rot.transpose * (camTurn.samples 0).rot = 1) ∧
    ((camTurn.samples 1).rot.det = 1 ∧
      (camTurn.samples 1).rot.transpose * (camTurn.samples 1).rot = 1) ∧
    (acquirePose camTurn 2).rot.det = 1 / 2 ∧
    ¬ |(acquirePose camTurn 2).rot.det - 1| ≤ 1 / 1000 ∧
    (extrinsic_calibration [camTurn, camTurn] 2).1 = Except.ok [1] := by
  have hs0 : camTurn.samples 0 = ⟨rotZ90, 0⟩ := rfl
  have hs1 : camTurn.samples 1 = ⟨1, 0⟩ := rfl
  refine ⟨⟨?_, ?_⟩, ⟨?_, ?_⟩, acquire_camTurn_det, ?_, ?_⟩
  · rw [hs0]
    simp [rotZ90, Matrix.det_fin_three]
  · rw [hs0]
    show rotZ90.transpose * rotZ90 = 1
    ext a b
    rw [Matrix.mul_apply, Fin.sum_univ_three]
    fin_cases a <;> fin_cases b <;> simp [rotZ90, Matrix.one_apply]
  · rw [hs1]
    exact Matrix.det_one
  · rw [hs1]
    show (1 : Mat3).transpose * 1 = 1
    rw [Matrix.transpose_one, one_mul]
  · rw [acquire_camTurn_det]
    have habs : |(1 : ℚ) / 2 - 1| = 1 / 2 := by
      rw [abs_sub_comm, abs_of_pos] <;> norm_num
    rw [habs]
    norm_num
  · have hdet : ∀ cam ∈ [camTurn, camTurn], (camHom 2 cam).det ≠ 0 := by
      intro cam hcam
      have hc : cam = camTurn := by
        rcases List.mem_cons.1 hcam with rfl | h2
        · rfl
        · exact List.mem_singleton.1 h2
      rw [hc, camHom, det_homFromPose, acquire_camTurn_det]
      norm_num
    have h := extrinsic_ok [camTurn, camTurn] 2 (by simp) hdet
    rw [h]
    have hrel : relOf (camHom 2 camTurn) (camHom 2 camTurn) = 1 := by
      refine relOf_self _ ?_
      rw [camHom, det_homFromPose, acquire_camTurn_det]
      norm_num
    simp [hrel]

/-- C2 amended: when `sample_count = 1` the Pose used for a camera is the
single direct PnP estimate, so it is a proper orthonormal rotation
(exactly, hence within any tolerance) whenever that estimate is; for
`sample_count > 1` the element-wise averaged aggregate need not remain a
rotation (element-wise averaging can leave the rotation group). -/
theorem single_sample_pose_rotation (cam : CameraModel)
    (h : (cam.samples 0).rot.det = 1 ∧
      (cam.samples 0).rot.transpose * (cam.samples 0).rot = 1) :
    (acquirePose cam 1).rot.det = 1 ∧
    (acquirePose cam 1).rot.transpose * (acquirePose cam 1).rot = 1 := by
  have h1 : acquirePose cam 1 = cam.samples 0 := by
    rw [acquirePose, if_pos rfl]
  rw [h1]
  exact h

theorem single_sample_pose_rotation_witness :
    (acquirePose idCam 1).rot.det = 1 ∧
    (acquirePose idCam 1).rot.transpose * (acquirePose idCam 1).rot = 1 :=
  single_sample_pose_rotation idCam
    ⟨Matrix.det_one, by
      show (1 : Mat3).transpose * 1 = 1
      rw [Matrix.transpose_one, one_mul]⟩

/-- C4 (spec-modelled): the pair returned by the pose estimator is the
`solvePnP`/`Rodrigues` output unchanged, so — under the modelled solver
contract — applying its rotation and then adding its translation maps
every chessboard-frame grid point to that point's camera-frame
coordinates. -/
theorem chessboard_pose_frames (cols rows : ℕ) (sq : ℚ)
    (camPt : ℕ → Vec3) (R : Mat3) (t : Vec3)
    (h : SolvePnPReturns (objp cols rows sq) camPt R t) :
    ∀ m, (hm : m < (objp cols rows sq).length) →
      (chessboard_pose_estimation R t).rot *
          (objp cols rows sq).get ⟨m, hm⟩ +
        (chessboard_pose_estimation R t).trasl = camPt m := by
  intro m hm
  exact h m hm

lemma objp_one : objp 1 1 1000 = [objpPoint 1000 0 0] := by
  simp [objp, objpRow, List.range_succ]

lemma objpPoint_zero : objpPoint 1000 0 0 = 0 := by
  ext a b
  fin_cases a <;> simp [objpPoint]

theorem chessboard_pose_frames_witness :
    (chessboard_pose_estimation 1 0).rot *
        (objp 1 1 1000).get ⟨0, by rw [objp_one]; norm_num⟩ +
      (chessboard_pose_estimation 1 0).trasl = (fun _ : ℕ => (0 : Vec3)) 0 :=
  chessboard_pose_frames 1 1 1000 (fun _ => 0) 1 0
    (by
      rw [SolvePnPReturns, objp_one]
      intro m hm
      have h0 : m = 0 := by simpa using hm
      subst h0
      show (1 : Mat3) * objpPoint 1000 0 0 + 0 = 0
      rw [Matrix.one_mul, add_zero, objpPoint_zero])
    0 (by rw [objp_one]; norm_num)

/-- C6: swapping two non-reference cameras (indices `i, j ≥ 1`) in the
input list — each camera keeping its own pose samples — permutes the
output list correspondingly: the run still succeeds, entries `i - 1` and
`j - 1` exchange places with their numeric values unchanged, and every
other entry is untouched. -/
theorem swap_nonreference_cameras (cameras : List CameraModel)
    (loops i j : ℕ) (out : List Mat4) (_hl : 1 ≤ loops)
    (h3 : 3 ≤ cameras.length) (hi1 : 1 ≤ i) (hj1 : 1 ≤ j) (hij : i ≠ j)
    (hi : i < cameras.length) (hj : j < cameras.length)
    (h : (extrinsic_calibration cameras loops).1 = Except.ok out) :
    ∃ out2,
      (extrinsic_calibration
        ((cameras.set i (cameras.get ⟨j, hj⟩)).set j
          (cameras.get ⟨i, hi⟩)) loops).1 = Except.ok out2 ∧
      out2.length = out.length ∧
      out2[i - 1]? = out[j - 1]? ∧
      out2[j - 1]? = out[i - 1]? ∧
      (∀ k, k ≠ i - 1 → k ≠ j - 1 → out2[k]? = out[k]?) := by
  obtain ⟨h2, hdet, hout⟩ := extrinsic_ok_imp cameras loops out h
  set gj := cameras.get ⟨j, hj⟩ with hgj
  set gi := cameras.get ⟨i, hi⟩ with hgi
  set cams2 := (cameras.set i gj).set j gi with hcams2
  have hlen2 : cams2.length = cameras.length := by
    rw [hcams2, List.length_set, List.length_set]
  have hdet2 : ∀ cam ∈ cams2, (camHom loops cam).det ≠ 0 := by
    intro cam hcam
    rcases List.mem_or_eq_of_mem_set hcam with hcam1 | rfl
    · rcases List.mem_or_eq_of_mem_set hcam1 with hcam0 | rfl
      · exact hdet cam hcam0
      · exact hdet gj (List.get_mem cameras j hj)
    · exact hdet gi (List.get_mem cameras i hi)
  have hhead : cams2.headI = cameras.headI := by
    obtain ⟨c0, rest, hc⟩ : ∃ c0 rest, cameras = c0 :: rest := by
      cases cameras with
      | nil => simp at h2
      | cons c0 rest => exact ⟨c0, rest, rfl⟩
    obtain ⟨i2, rfl⟩ : ∃ i2, i = i2 + 1 := ⟨i - 1, by omega⟩
    obtain ⟨j2, rfl⟩ : ∃ j2, j = j2 + 1 := ⟨j - 1, by omega⟩
    rw [hcams2, hc]
    rfl
  have hsetlen : (cameras.set i gj).length = cameras.length :=
    List.length_set cameras i gj
  have h2b : 2 ≤ cams2.length := by omega
  have hout2 := extrinsic_ok cams2 loops h2b hdet2
  rw [hhead] at hout2
  have hElem2 : ∀ k, ((cams2.map fun cam =>
      relOf (camHom loops cameras.headI) (camHom loops cam)).drop 1)[k]? =
      (cams2[1 + k]?).map fun cam =>
        relOf (camHom loops cameras.headI) (camHom loops cam) := by
    intro k
    rw [List.getElem?_drop, List.getElem?_map]
  have hElem : ∀ k, out[k]? =
      (cameras[1 + k]?).map fun cam =>
        relOf (camHom loops cameras.headI) (camHom loops cam) := by
    intro k
    rw [hout, List.getElem?_drop, List.getElem?_map]
  refine ⟨_, hout2, ?_, ?_, ?_, ?_⟩
  · rw [hout]
    simp [hlen2]
  · rw [hElem2, hElem]
    have h1i : 1 + (i - 1) = i := by omega
    have h1j : 1 + (j - 1) = j := by omega
    rw [h1i, h1j, hcams2, List.getElem?_set_ne (by omega),
      List.getElem?_set_self hi, hgj, List.get_eq_getElem,
      List.getElem?_eq_getElem hj]
  · rw [hElem2, hElem]
    have h1i : 1 + (i - 1) = i := by omega
    have h1j : 1 + (j - 1) = j := by omega
    rw [h1i, h1j, hcams2, List.getElem?_set_self (by omega), hgi,
      List.get_eq_getElem, List.getElem?_eq_getElem hi]
  · intro k hki hkj
    rw [hElem2, hElem, hcams2, List.getElem?_set_ne (by omega),
      List.getElem?_set_ne (by omega)]

theorem swap_nonreference_cameras_witness :
    3 ≤ [idCam, idCam, idCam].length ∧
    ∃ out2,
      (extrinsic_calibration
        (([idCam, idCam, idCam].set 1
            ([idCam, idCam, idCam].get ⟨2, by norm_num⟩)).set 2
          ([idCam, idCam, idCam].get ⟨1, by norm_num⟩)) 1).1 =
        Except.ok out2 ∧
      out2.length = [(1 : Mat4), 1].length ∧
      out2[0]? = [(1 : Mat4), 1][1]? ∧
      out2[1]? = [(1 : Mat4), 1][0]? ∧
      (∀ k, k ≠ 0 → k ≠ 1 → out2[k]? = [(1 : Mat4), 1][k]?) := by
  have heval : (extrinsic_calibration [idCam, idCam, idCam] 1).1 =
      Except.ok [1, 1] := by
    have hdet : ∀ cam ∈ [idCam, idCam, idCam],
        (camHom 1 cam).det ≠ 0 := by
      intro cam hcam
      have hc : cam = idCam := by
        rcases List.mem_cons.1 hcam with rfl | h2
        · rfl
        · rcases List.mem_cons.1 h2 with rfl | h3
          · rfl
          · exact List.mem_singleton.1 h3
      rw [hc, camHom_idCam, Matrix.det_one]
      exact one_ne_zero
    have h := extrinsic_ok [idCam, idCam, idCam] 1 (by simp) hdet
    rw [h]
    have hrel : relOf (camHom 1 idCam) (camHom 1 idCam) = 1 := by
      rw [camHom_idCam, relOf, invVal_one, one_mul]
    simp [hrel]
  exact ⟨by norm_num,
    swap_nonreference_cameras [idCam, idCam, idCam] 1 1 2 [1, 1]
      (by norm_num) (by norm_num) (by norm_num) (by norm_num)
      (by norm_num) (by norm_num) (by norm_num) heval⟩

end CameraCalibration
